import Mathlib

/-!
Verification development for the client store of a keyboard-interception /
text-to-speech desktop utility (`src/stores/keyboard.ts` plus the in-window
hotkey and continuous-play logic of the main component).

The definitions below are shallow embeddings of the TypeScript source:
pure fragments become Lean functions, the store's mutable fields become an
explicit state record, and the asynchronous push/pull delivery of key events
becomes a small labelled transition system whose actions are the exact
synchronous blocks of the source (an event-listener invocation, the part of
`fetchKeys` before its `await`, and its continuation after the `await`).
-/

namespace TtsApp

/-! ## JavaScript string primitives

The source manipulates JS strings (`slice`, `startsWith`, `includes`,
`toUpperCase`, `toLowerCase`).  We model a JS string as a Lean `String`
(a packed `List Char`) and the operations at the code-point level, which
agrees with the UTF-16 behaviour on the basic-multilingual-plane
characters this application produces. -/

/-- Prefix-based substring test over char lists
(JS `String.prototype.includes`). -/
def listContainsSub (needle : List Char) : List Char → Bool
  | [] => needle.isPrefixOf []
  | c :: cs => needle.isPrefixOf (c :: cs) || listContainsSub needle cs

/-- JS `hay.includes(needle)`. -/
def jsIncludes (needle hay : String) : Bool :=
  listContainsSub needle.data hay.data

/-- JS `s.startsWith(p)`. -/
def jsStartsWith (p s : String) : Bool :=
  p.data.isPrefixOf s.data

/-- JS `s.slice(n)` for a non-negative index. -/
def jsSliceFrom (n : Nat) (s : String) : String :=
  ⟨s.data.drop n⟩

/-- JS `s.slice(0, -1)`: drop the last character (identity on `""`). -/
def strDropLast (s : String) : String :=
  ⟨s.data.dropLast⟩

/-- JS `String.prototype.toUpperCase` restricted to the characters this
application routes through it: ASCII letters and the Russian alphabet
(`а`–`я` U+0430–U+044F and `ё` U+0451). Other characters are unchanged. -/
def jsToUpperChar (c : Char) : Char :=
  if 97 ≤ c.toNat ∧ c.toNat ≤ 122 then Char.ofNat (c.toNat - 32)
  else if 0x430 ≤ c.toNat ∧ c.toNat ≤ 0x44F then Char.ofNat (c.toNat - 32)
  else if c.toNat = 0x451 then Char.ofNat 0x401
  else c

/-- JS `String.prototype.toLowerCase` on the same character ranges. -/
def jsToLowerChar (c : Char) : Char :=
  if 65 ≤ c.toNat ∧ c.toNat ≤ 90 then Char.ofNat (c.toNat + 32)
  else if 0x410 ≤ c.toNat ∧ c.toNat ≤ 0x42F then Char.ofNat (c.toNat + 32)
  else if c.toNat = 0x401 then Char.ofNat 0x451
  else c

/-! ## Locale key translation (`processInterceptedKey`) -/

/-- Model of the `input_language` field of the store: `'ru' | 'en'`. -/
inductive InputLang
  | ru
  | en
  deriving DecidableEq, Repr

/-- The inline `ruLayout` table of `processInterceptedKey`
(QWERTY → ЙЦУКЕН), keyed on both letter cases exactly as in the source. -/
def ruLayout (c : Char) : Option Char :=
  match c with
  | 'Q' => some 'Й' | 'W' => some 'Ц' | 'E' => some 'У' | 'R' => some 'К'
  | 'T' => some 'Е' | 'Y' => some 'Н' | 'U' => some 'Г' | 'I' => some 'Ш'
  | 'O' => some 'Щ' | 'P' => some 'З'
  | 'A' => some 'Ф' | 'S' => some 'Ы' | 'D' => some 'В' | 'F' => some 'А'
  | 'G' => some 'П' | 'H' => some 'Р' | 'J' => some 'О' | 'K' => some 'Л'
  | 'L' => some 'Д'
  | 'Z' => some 'Я' | 'X' => some 'Ч' | 'C' => some 'С' | 'V' => some 'М'
  | 'B' => some 'И' | 'N' => some 'Т' | 'M' => some 'Ь'
  | 'q' => some 'й' | 'w' => some 'ц' | 'e' => some 'у' | 'r' => some 'к'
  | 't' => some 'е' | 'y' => some 'н' | 'u' => some 'г' | 'i' => some 'ш'
  | 'o' => some 'щ' | 'p' => some 'з'
  | 'a' => some 'ф' | 's' => some 'ы' | 'd' => some 'в' | 'f' => some 'а'
  | 'g' => some 'п' | 'h' => some 'р' | 'j' => some 'о' | 'k' => some 'л'
  | 'l' => some 'д'
  | 'z' => some 'я' | 'x' => some 'ч' | 'c' => some 'с' | 'v' => some 'м'
  | 'b' => some 'и' | 'n' => some 'т' | 'm' => some 'ь'
  | _ => none

/-- The store fields read and written by `processInterceptedKey` and the
batched text mutator: the composed text, the not-yet-flushed pending
buffer, and the modifier state. -/
structure TextState where
  interceptedText : String
  pendingTextUpdate : String
  inputLanguage : InputLang
  capsLock : Bool
  deriving DecidableEq, Repr

/-- Append a single character to `pendingTextUpdate`
(JS `this.pendingTextUpdate += c`). -/
def appendPending (c : Char) (s : TextState) : TextState :=
  { s with pendingTextUpdate := s.pendingTextUpdate ++ ⟨[c]⟩ }

/-- Translation of `processInterceptedKey(key)` of `src/stores/keyboard.ts`, branch for
branch.  The key's `key_name` selects the action; `Backspace` mutates the
composed text immediately and clears the pending buffer, all other
recognised keys append to the pending buffer. -/
def processInterceptedKey (keyName : String) (s : TextState) : TextState :=
  if jsIncludes "Win+Esc" keyName then s
  else if keyName = "Backspace" then
    { s with interceptedText := strDropLast s.interceptedText, pendingTextUpdate := "" }
  else if keyName = "Enter" then appendPending '\n' s
  else if keyName = "Space" then appendPending ' ' s
  else if keyName = "Tab" then appendPending '\t' s
  else if keyName = "Comma" then
    appendPending (if s.inputLanguage = .ru then 'б' else ',') s
  else if keyName = "Period" then
    appendPending (if s.inputLanguage = .ru then 'ю' else '.') s
  else if keyName = "Slash" then
    appendPending (if s.inputLanguage = .ru then '.' else '/') s
  else if keyName = "Semicolon" then
    appendPending (if s.inputLanguage = .ru then 'ж' else ';') s
  else if keyName = "Quote" then
    appendPending (if s.inputLanguage = .ru then 'э' else Char.ofNat 39) s
  else if keyName = "Backtick" then
    appendPending (if s.inputLanguage = .ru then 'ё' else Char.ofNat 96) s
  else if keyName = "Left Bracket" then
    appendPending (if s.inputLanguage = .ru then 'х' else '[') s
  else if keyName = "Right Bracket" then
    appendPending (if s.inputLanguage = .ru then 'ъ' else ']') s
  else if keyName = "Backslash" then
    appendPending (if s.inputLanguage = .ru then 'ё' else '\\') s
  else if keyName = "Minus" then
    appendPending (if s.inputLanguage = .ru then '-' else '-') s
  else if keyName = "Equals" then
    appendPending (if s.inputLanguage = .ru then '=' else '=') s
  else if jsStartsWith "Digit " keyName then
    { s with pendingTextUpdate := s.pendingTextUpdate ++ jsSliceFrom 6 keyName }
  else
    match keyName.data with
    | [c] =>
      let result := if s.inputLanguage = .ru then (ruLayout c).getD c else c
      appendPending (if s.capsLock then jsToUpperChar result else jsToLowerChar result) s
    | _ => s

/-- The rAF callback scheduled by `scheduleTextUpdate`: append the pending
buffer to the composed text and clear it. -/
def flushTextUpdate (s : TextState) : TextState :=
  { s with interceptedText := s.interceptedText ++ s.pendingTextUpdate,
           pendingTextUpdate := "" }

/-- The composed text once the scheduled flush has run: composed text plus
the still-pending buffer. -/
def effText (s : TextState) : String :=
  s.interceptedText ++ s.pendingTextUpdate

/-! ## Sequence watermark tracker: dual delivery of key events

`KeyEvent` is the payload of both the `key_intercepted` push event and the
`get_intercepted_keys` pull response.  The store state relevant to key
delivery is embedded in `KModel`; the three kinds of synchronous execution
blocks of the source become the actions of a transition system:

* `push e` — the `key_intercepted` listener body;
* `pullStart` — `fetchKeys` up to its `await` (the in-flight guard and the
  capture of `afterSeq`);
* `pullResume batch` — the continuation of `fetchKeys` after the `await`
  returns `batch` (including the `finally` that clears the guard).

The rendering flush (`requestAnimationFrame`) only moves the pending buffer
into the composed text, so the composed text observable after quiescence is
`effText` of the text state; see `effText_flushTextUpdate`. -/

/-- Model of the `KeyEvent` interface of the store (timestamp is irrelevant to the
delivery logic and modelled as an integer). -/
structure KeyEvent where
  vk_code : Int
  key_name : String
  timestamp : Int
  seq_num : Int
  deriving DecidableEq, Repr

/-- The store fields touched by `fetchKeys`, the `key_intercepted` listener
and `scheduleTextUpdate`, plus a ghost log (`processedLog`) of the events
that were passed to `processInterceptedKey`, in order. -/
structure KModel where
  textState : TextState
  blockingEnabled : Bool
  lastProcessedSeqNum : Int
  fetchingKeys : Bool
  pendingAfterSeq : Int
  textUpdateScheduled : Bool
  interceptedKeys : List KeyEvent
  latestKey : Option KeyEvent
  processedLog : List KeyEvent
  deriving DecidableEq, Repr

/-- Initial store state: empty text, watermark `-1`, no pull in flight. -/
def initModel (lang : InputLang) (caps : Bool) : KModel :=
  { textState := ⟨"", "", lang, caps⟩
    blockingEnabled := true
    lastProcessedSeqNum := -1
    fetchingKeys := false
    pendingAfterSeq := -1
    textUpdateScheduled := false
    interceptedKeys := []
    latestKey := none
    processedLog := [] }

/-- Model of `[...keys].sort((a, b) => a.seq_num - b.seq_num)`: a comparison sort by
`seq_num` (stable; on the duplicate-free batches considered here any
correct sort produces the same list). -/
def sortBySeqNum (l : List KeyEvent) : List KeyEvent :=
  l.insertionSort (fun a b => a.seq_num ≤ b.seq_num)

/-- Model of `Math.max(...keys.map(k => k.seq_num))`; only ever applied to non-empty
batches in the source. -/
def maxSeqNum : List KeyEvent → Int
  | [] => -1
  | e :: es => es.foldl (fun a k => max a k.seq_num) e.seq_num

/-- Fold `processInterceptedKey` over a list of events. -/
def procKeys (ts : TextState) (l : List KeyEvent) : TextState :=
  l.foldl (fun t e => processInterceptedKey e.key_name t) ts

/-- The `key_intercepted` listener body: raise the watermark with a `max`,
record the key, and — when blocking is enabled — process it immediately and
schedule a flush.  Note that the processing is *not* gated on the
watermark comparison. -/
def stepPush (e : KeyEvent) (s : KModel) : KModel :=
  let s1 := { s with lastProcessedSeqNum := max s.lastProcessedSeqNum e.seq_num,
                     interceptedKeys := s.interceptedKeys ++ [e],
                     latestKey := some e }
  if s.blockingEnabled then
    { s1 with textState := processInterceptedKey e.key_name s1.textState,
              textUpdateScheduled := true,
              processedLog := s1.processedLog ++ [e] }
  else s1

/-- Translation of `fetchKeys` up to its `await`: reject if a pull is already in flight,
otherwise set the guard and capture `afterSeq` (the current watermark;
`-1` plays the role of the `null` "from the beginning" request). -/
def stepPullStart (s : KModel) : KModel :=
  if s.fetchingKeys then s
  else { s with fetchingKeys := true, pendingAfterSeq := s.lastProcessedSeqNum }

/-- The continuation of `fetchKeys` once the backend returns `batch`:
if blocking is enabled and the batch is non-empty, sort it by `seq_num`,
process every key, and *overwrite* the watermark with the batch maximum;
the `finally` clears the in-flight guard. -/
def stepPullResume (batch : List KeyEvent) (s : KModel) : KModel :=
  if s.fetchingKeys = false then s
  else
    let s1 :=
      if s.blockingEnabled && !batch.isEmpty then
        let sorted := sortBySeqNum batch
        { s with textState := procKeys s.textState sorted,
                 lastProcessedSeqNum := maxSeqNum sorted,
                 textUpdateScheduled := true,
                 processedLog := s.processedLog ++ sorted }
      else s
    { s1 with fetchingKeys := false }

/-- A delivery action: one synchronous block of the source. -/
inductive KAction
  | push (e : KeyEvent)
  | pullStart
  | pullResume (batch : List KeyEvent)
  deriving DecidableEq, Repr

/-- Dispatch one action. -/
def stepModel (s : KModel) : KAction → KModel
  | .push e => stepPush e s
  | .pullStart => stepPullStart s
  | .pullResume batch => stepPullResume batch s

/-- Run a whole interleaving of deliveries. -/
def runActs (s : KModel) (tr : List KAction) : KModel :=
  tr.foldl stepModel s

/-- An interleaving is *fresh* when every event processed — whether pushed
or contained in a resumed pull batch — has `seq_num` strictly above the
watermark current at the moment it is processed, and pull batches are
duplicate-free.  This is the gate the specification attributes to both
paths; the code itself does not enforce it. -/
def freshRun (s : KModel) : List KAction → Bool
  | [] => true
  | .push e :: rest =>
      decide (s.lastProcessedSeqNum < e.seq_num) && freshRun (stepModel s (.push e)) rest
  | .pullStart :: rest => freshRun (stepModel s .pullStart) rest
  | .pullResume batch :: rest =>
      batch.all (fun e => decide (s.lastProcessedSeqNum < e.seq_num))
        && decide (batch.map (fun e => e.seq_num)).Nodup
        && freshRun (stepModel s (.pullResume batch)) rest

/-- Weaker condition constraining only pull batches (pushes are
unrestricted): every event of a resumed batch has `seq_num` strictly above
the watermark at resume time.  This holds whenever no push is delivered
while a pull is in flight. -/
def resumeFreshRun (s : KModel) : List KAction → Bool
  | [] => true
  | .push e :: rest => resumeFreshRun (stepModel s (.push e)) rest
  | .pullStart :: rest => resumeFreshRun (stepModel s .pullStart) rest
  | .pullResume batch :: rest =>
      batch.all (fun e => decide (s.lastProcessedSeqNum < e.seq_num))
        && resumeFreshRun (stepModel s (.pullResume batch)) rest

/-- Reference semantics of the specification: process each event of the set
exactly once, in ascending `seq_num` order, starting from empty text; the
result is the composed text after the final flush. -/
def specOnceText (lang : InputLang) (caps : Bool) (s : List KeyEvent) : String :=
  effText (procKeys ⟨"", "", lang, caps⟩ (sortBySeqNum s))

/-! ## TTS queue & history reconciler -/

/-- Model of `TtsMessageStatus = 'queued' | 'playing' | 'completed'`. -/
inductive TtsMessageStatus
  | queued
  | playing
  | completed
  deriving DecidableEq, Repr

/-- Model of the `TtsMessage` interface (timestamp in integer seconds). -/
structure TtsMessage where
  id : String
  text : String
  timestamp : Int
  status : TtsMessageStatus
  locked : Bool
  deriving DecidableEq, Repr

/-- Toast notification state of the store. -/
inductive ToastType
  | error
  | warning
  | info
  deriving DecidableEq, Repr

/-- The `toast` record of the store (`showFlag` models the `show` field;
`show` is a Lean keyword). -/
structure ToastState where
  showFlag : Bool
  message : String
  type : ToastType
  deriving DecidableEq, Repr

/-- Translation of `showToast(message, type)`: replace the current notification and make it
visible (the auto-hide timer is outside this model). -/
def showToast (message : String) (type : ToastType) (_t : ToastState) : ToastState :=
  { showFlag := true, message := message, type := type }

/-- The fallback predicate of `findMessage`: a provisional (`temp-`-prefixed)
entry still in `queued` or `playing` status. -/
def isActiveTemp (m : TtsMessage) : Bool :=
  jsStartsWith "temp-" m.id && (m.status = .queued || m.status = .playing)

/-- Mutate the first element satisfying `p` (JS `Array.prototype.find`
followed by an in-place mutation); identity when none matches. -/
def replaceFirst (p : TtsMessage → Bool) (f : TtsMessage → TtsMessage) :
    List TtsMessage → List TtsMessage
  | [] => []
  | x :: xs => if p x then f x :: xs else x :: replaceFirst p f xs

/-- Translation of `findMessage(id)` of `setupTtsEventListeners` combined with the status
assignment the event handler performs on the found message: look up by
exact id; failing that, fall back to the first (newest, in the store's
newest-first order) provisional entry still `queued` or `playing`, which
also adopts the pushed id. -/
def findMessageApply (id : String) (newStatus : TtsMessageStatus)
    (h : List TtsMessage) : List TtsMessage :=
  if h.any (fun m => m.id = id) then
    replaceFirst (fun m => m.id = id) (fun m => { m with status := newStatus }) h
  else
    replaceFirst isActiveTemp (fun m => { m with id := id, status := newStatus }) h

/-- The `tts:started` listener: set the matched message to `playing`. -/
def ttsStartedHandler (id : String) (h : List TtsMessage) : List TtsMessage :=
  findMessageApply id .playing h

/-- The `tts:completed` listener: set the matched message to `completed`. -/
def ttsCompletedHandler (id : String) (h : List TtsMessage) : List TtsMessage :=
  findMessageApply id .completed h

/-- The `tts:failed` listener: set the matched message to `completed`
(the toast it also raises is modelled separately by `showToast`). -/
def ttsFailedHandler (id : String) (h : List TtsMessage) : List TtsMessage :=
  findMessageApply id .completed h

/-- The `tts:cancelled` listener: set the matched message to `completed`. -/
def ttsCancelledHandler (id : String) (h : List TtsMessage) : List TtsMessage :=
  findMessageApply id .completed h

/-- Number of history entries currently in `playing` status. -/
def countPlaying (h : List TtsMessage) : Nat :=
  h.countP (fun m => m.status = .playing)

/-- History plus toast: the store state touched by `speakTextWithHistory`. -/
structure TtsUiState where
  ttsHistory : List TtsMessage
  toast : ToastState
  deriving DecidableEq, Repr

/-- The synchronous part of `speakTextWithHistory`: unshift an optimistic
`queued` entry with a client-minted provisional id. -/
def speakOptimisticInsert (tempId text : String) (timestamp : Int)
    (st : TtsUiState) : TtsUiState :=
  { st with ttsHistory := ⟨tempId, text, timestamp, .queued, false⟩ :: st.ttsHistory }

/-- The `.then` continuation of `speakTextWithHistory` on backend
acceptance: replace the provisional id with the durable one in place. -/
def speakEnqueueAccepted (tempId realId : String) (st : TtsUiState) : TtsUiState :=
  { st with ttsHistory :=
      replaceFirst (fun m => m.id = tempId) (fun m => { m with id := realId }) st.ttsHistory }

/-- The `.catch` continuation of `speakTextWithHistory` on backend
rejection: remove the optimistic entry and raise an error toast. -/
def speakEnqueueRejected (tempId errMsg : String) (st : TtsUiState) : TtsUiState :=
  { ttsHistory := st.ttsHistory.filter (fun m => !(m.id = tempId))
    toast := showToast errMsg .error st.toast }

/-! ### `fetchTtsHistory` merge

The source builds a `Map` of server messages, then pushes the server
messages (preferring the local status when a local entry with the same id
exists) and finally pushes the local `temp-` entries unknown to the
server.  The `Map` and the two loops are mirrored literally. -/

/-- JS `Map.prototype.set`: overwrite in place or append. -/
def mapSet (m : List (String × TtsMessage)) (k : String) (v : TtsMessage) :
    List (String × TtsMessage) :=
  if m.any (fun p => p.1 = k) then
    m.map (fun p => if p.1 = k then (k, v) else p)
  else m ++ [(k, v)]

/-- JS `Map.prototype.has`. -/
def mapHas (m : List (String × TtsMessage)) (k : String) : Bool :=
  m.any (fun p => p.1 = k)

/-- The `serverMap` loop of `fetchTtsHistory`. -/
def buildServerMap (server : List TtsMessage) : List (String × TtsMessage) :=
  server.foldl (fun m msg => mapSet m msg.id msg) []

/-- The merge performed by a successful `fetchTtsHistory`, given the
server-returned history and the current local history. -/
def fetchTtsHistoryMerge (server localH : List TtsMessage) : List TtsMessage :=
  let serverMap := buildServerMap server
  let phase1 := server.foldl (fun acc serverMsg =>
    acc ++ [match localH.find? (fun m => m.id = serverMsg.id) with
            | some localMsg => { serverMsg with status := localMsg.status }
            | none => serverMsg]) []
  localH.foldl (fun acc localMsg =>
    if !mapHas serverMap localMsg.id && jsStartsWith "temp-" localMsg.id then
      acc ++ [localMsg]
    else acc) phase1

/-! ## Continuous-play segmenter -/

/-- The character class of the regex `/[.?!]/`. -/
def isSentenceTerminator (c : Char) : Bool :=
  c = '.' || c = '?' || c = '!'

/-- Model of `text.match(/[.?!]/)` followed by the split at `match.index + 1`:
the first sentence (terminator included) and the remaining text. -/
def segmentFirstSentence (text : String) : Option (String × String) :=
  match text.data.findIdx? isSentenceTerminator with
  | some p => some (⟨text.data.take (p + 1)⟩, ⟨text.data.drop (p + 1)⟩)
  | none => none

/-- The `watch(() => store.interceptedText)` callback of the playback
component: inactive unless continuous mode is on, the text is non-empty,
nothing is playing and the re-entrancy cooldown flag is clear; otherwise it
dispatches the first complete sentence and retains the rest.  `none` means
no utterance is dispatched and the composed text is left alone. -/
def continuousWatcher (continuousPlay isPlaying isProcessingSpeech : Bool)
    (newText : String) : Option (String × String) :=
  if !continuousPlay || newText = "" || isPlaying || isProcessingSpeech then none
  else segmentFirstSentence newText

/-- Translation of `handlePlay` of the playback component: with continuous mode, split at
the first terminator when there is one, otherwise speak the whole text;
without continuous mode, always speak the whole text.  Returns the
dispatched utterance and the new composed text (`none` on empty text). -/
def handlePlay (continuousPlay : Bool) (text : String) : Option (String × String) :=
  if text = "" then none
  else if continuousPlay then
    match segmentFirstSentence text with
    | some r => some r
    | none => some (text, "")
  else some (text, "")

/-! ## Overlay hotkey state machine -/

/-- Model of the `hotkey_mode` field of the store. -/
inductive HotkeyMode
  | background_blocking
  | overlay_call
  deriving DecidableEq, Repr

/-- The window-state queries performed by `handleWinEscHotkey`. -/
structure WindowFlags where
  isFocused : Bool
  isVisible : Bool
  isMinimized : Bool
  deriving DecidableEq, Repr

/-- The window command issued by one accepted hotkey trigger. -/
inductive WindowTransition
  | showOverlay
  | hideAndRestore
  | focusOnly
  deriving DecidableEq, Repr

/-- The module-level debounce state shared by the two trigger sources, plus
the store's hotkey mode. -/
structure HotkeyGuard where
  lastHotkeyCallTime : Int
  hotkeyMode : HotkeyMode
  deriving DecidableEq, Repr

/-- Constant `HOTKEY_DEBOUNCE_MS` of the main component. -/
def HOTKEY_DEBOUNCE_MS : Int := 300

/-- Translation of `handleWinEscHotkey`, called at time `now` with the window in state `w`:
debounce first (recording the call time), then require overlay mode, then
choose the transition from the actual window state.  Both the in-window
Win+Esc capture and the `show_window_requested` hook listener invoke
exactly this function. -/
def handleWinEscHotkey (now : Int) (w : WindowFlags) (s : HotkeyGuard) :
    HotkeyGuard × Option WindowTransition :=
  if now - s.lastHotkeyCallTime < HOTKEY_DEBOUNCE_MS then (s, none)
  else
    let s1 := { s with lastHotkeyCallTime := now }
    if s.hotkeyMode ≠ .overlay_call then (s1, none)
    else
      (s1, some (if w.isMinimized || !w.isVisible then .showOverlay
                 else if w.isFocused then .hideAndRestore
                 else .focusOnly))

/-! ## General helper lemmas -/

/-- A single-character string differs from any string of other length. -/
theorem singleCharStringNe (c : Char) (s : String) (h : s.data.length ≠ 1) :
    String.mk [c] ≠ s :=
  fun he => h (by cases he; rfl)

/-- The flush moves the pending buffer without changing the effective
composed text. -/
theorem effText_flushTextUpdate (s : TextState) :
    effText (flushTextUpdate s) = effText s := by
  simp [effText, flushTextUpdate, String.append_empty, String.append_assoc]

/-! ## Claim C4: rejected enqueue rolls back the optimistic entry -/

/-- C4. For every history state and fresh provisional id, the rejection
continuation of `speakTextWithHistory` removes exactly the optimistic entry
inserted by the call and raises an error toast: the history afterwards is
the history from immediately before the call. -/
theorem claim_C4 (st : TtsUiState) (tempId text errMsg : String) (timestamp : Int)
    (hfresh : ∀ m ∈ st.ttsHistory, m.id ≠ tempId) :
    (speakEnqueueRejected tempId errMsg
        (speakOptimisticInsert tempId text timestamp st)).ttsHistory = st.ttsHistory
    ∧ (speakEnqueueRejected tempId errMsg
        (speakOptimisticInsert tempId text timestamp st)).toast
      = { showFlag := true, message := errMsg, type := .error } := by
  refine ⟨?_, rfl⟩
  simp only [speakEnqueueRejected, speakOptimisticInsert, List.filter_cons]
  simp only [decide_eq_true_eq, decide_True, Bool.not_true, if_false, decide_eq_false]
  rw [if_neg (by simp)]
  exact List.filter_eq_self.mpr (fun m hm => by simp [hfresh m hm])

/-- Witness for C4 at a concrete history. -/
theorem claim_C4_witness :
    (∀ m ∈ ({ ttsHistory := [⟨"id-1", "hello", 5, .completed, false⟩],
              toast := ⟨false, "", .error⟩ } : TtsUiState).ttsHistory,
        m.id ≠ "temp-7")
    ∧ (speakEnqueueRejected "temp-7" "backend down"
         (speakOptimisticInsert "temp-7" "hi" 9
           { ttsHistory := [⟨"id-1", "hello", 5, .completed, false⟩],
             toast := ⟨false, "", .error⟩ })).ttsHistory
      = [⟨"id-1", "hello", 5, .completed, false⟩] :=
  ⟨by decide,
   (claim_C4 { ttsHistory := [⟨"id-1", "hello", 5, .completed, false⟩],
               toast := ⟨false, "", .error⟩ } "temp-7" "hi" "backend down" 9 (by decide)).1⟩

/-! ## Claim C6: shared 300 ms debounce over both hotkey trigger sources -/

/-- C6. Both the in-window Win+Esc capture and the hook's
`show_window_requested` listener invoke `handleWinEscHotkey`; when a first
trigger passes the debounce in overlay mode and a second trigger (from
either source) arrives within 300 ms of it, the first performs exactly one
show/hide/focus transition and the second is ignored. -/
theorem claim_C6 (s : HotkeyGuard) (t1 t2 : Int) (w1 w2 : WindowFlags)
    (hmode : s.hotkeyMode = .overlay_call)
    (hfirst : HOTKEY_DEBOUNCE_MS ≤ t1 - s.lastHotkeyCallTime)
    (hsecond : t2 - t1 < HOTKEY_DEBOUNCE_MS) :
    (handleWinEscHotkey t1 w1 s).2.isSome = true
    ∧ (handleWinEscHotkey t2 w2 (handleWinEscHotkey t1 w1 s).1).2 = none := by
  have h1 : ¬(t1 - s.lastHotkeyCallTime < HOTKEY_DEBOUNCE_MS) := not_lt.mpr hfirst
  constructor
  · simp [handleWinEscHotkey, h1, hmode]
  · have hfst : (handleWinEscHotkey t1 w1 s).1 = { s with lastHotkeyCallTime := t1 } := by
      simp [handleWinEscHotkey, h1, hmode]
    rw [hfst]
    simp [handleWinEscHotkey, hsecond]

/-- Witness for C6 at concrete times and window states. -/
theorem claim_C6_witness :
    ((⟨0, .overlay_call⟩ : HotkeyGuard).hotkeyMode = .overlay_call
      ∧ HOTKEY_DEBOUNCE_MS ≤ (1000 : Int) - 0 ∧ (1200 : Int) - 1000 < HOTKEY_DEBOUNCE_MS)
    ∧ (handleWinEscHotkey 1000 ⟨false, false, true⟩ ⟨0, .overlay_call⟩).2.isSome = true
    ∧ (handleWinEscHotkey 1200 ⟨true, true, false⟩
         (handleWinEscHotkey 1000 ⟨false, false, true⟩ ⟨0, .overlay_call⟩).1).2 = none :=
  ⟨⟨rfl, by decide, by decide⟩,
   claim_C6 ⟨0, .overlay_call⟩ 1000 1200 ⟨false, false, true⟩ ⟨true, true, false⟩
     rfl (by decide) (by decide)⟩

/-! ## Claim C7: continuous-mode segmentation at the first terminator -/

/-- C7. With continuous mode on and the segmenter active (nothing playing,
cooldown clear), a composed text whose first sentence terminator sits at
0-indexed position `p` is split into the dispatched utterance
`text[0..p+1]` and the retained remainder `text[p+1..]`. -/
theorem claim_C7 (text : String) (p : Nat)
    (hterm : text.data.findIdx? isSentenceTerminator = some p) :
    continuousWatcher true false false text
      = some (⟨text.data.take (p + 1)⟩, ⟨text.data.drop (p + 1)⟩) := by
  have hne : ¬(text = "") := by
    intro h
    subst h
    simp at hterm
  simp only [continuousWatcher, Bool.not_true, Bool.false_or, Bool.or_false]
  rw [if_neg (by simpa using hne)]
  simp [segmentFirstSentence, hterm]

/-- Witness for C7: composing `"Hello world."` dispatches exactly that
sentence and leaves the composed text empty. -/
theorem claim_C7_witness :
    ("Hello world.".data.findIdx? isSentenceTerminator = some 11)
    ∧ continuousWatcher true false false "Hello world." = some ("Hello world.", "") :=
  ⟨by decide, by rw [claim_C7 "Hello world." 11 (by decide)]; decide⟩

/-! ## Claim C8: Backspace semantics

The claim says a backspace removes exactly the most recently intended
character (the last pending character when the pending buffer is
non-empty).  The code instead drops the last character of the *composed*
text and discards the *whole* pending buffer, which coincides with the
claim only when nothing is pending. -/

/-- C8 counterexample: with composed text `"xy"` and pending buffer
`"ab"`, the claimed behaviour would leave `"xya"`, but the code leaves
`"x"` — three intended characters disappear. -/
theorem claim_C8_counterexample :
    effText (processInterceptedKey "Backspace" ⟨"xy", "ab", .en, false⟩) = "x"
    ∧ (⟨"xy", "ab", .en, false⟩ : TextState).interceptedText
        ++ strDropLast (⟨"xy", "ab", .en, false⟩ : TextState).pendingTextUpdate = "xya"
    ∧ ("x" : String) ≠ "xya" := by
  refine ⟨by decide, by decide, by decide⟩

/-- C8 as amended: a backward-delete applies immediately, bypassing the
batched flush — it removes the last character of the composed text and
discards the entire pending buffer; this equals deleting the most recently
intended character exactly when the pending buffer is empty. -/
theorem claim_C8 (s : TextState) :
    processInterceptedKey "Backspace" s
      = { s with interceptedText := strDropLast s.interceptedText, pendingTextUpdate := "" }
    ∧ (s.pendingTextUpdate = "" →
        effText (processInterceptedKey "Backspace" s) = strDropLast (effText s)) := by
  constructor
  · rfl
  · intro hp
    show strDropLast s.interceptedText ++ "" = strDropLast (s.interceptedText ++ s.pendingTextUpdate)
    rw [hp, String.append_empty, String.append_empty]

/-- Witness for C8 on an empty pending buffer. -/
theorem claim_C8_witness :
    (⟨"ab", "", .en, false⟩ : TextState).pendingTextUpdate = ""
    ∧ effText (processInterceptedKey "Backspace" ⟨"ab", "", .en, false⟩)
      = strDropLast (effText ⟨"ab", "", .en, false⟩) :=
  ⟨rfl, (claim_C8 ⟨"ab", "", .en, false⟩).2 rfl⟩

/-! ## Claim C9: alphabetic key translation -/

/-- The per-layout substitution of the specification: the Cyrillic layout
applies the fixed transliteration table, the Latin layout passes the
letter through. -/
def specLayoutChar (lang : InputLang) (c : Char) : Char :=
  match lang with
  | .ru => (ruLayout c).getD c
  | .en => c

/-- Case folding driven solely by caps lock, applied after layout
substitution. -/
def specCaseFold (caps : Bool) (c : Char) : Char :=
  if caps then jsToUpperChar c else jsToLowerChar c

/-- C9. A single-letter key appends exactly the caps-lock case folding of
the layout substitution of the letter to the pending buffer: the
transliteration table under the `'ru'` layout, the letter itself under
`'en'`, with the fold applied after substitution and independent of any
shift state (no shift enters `processInterceptedKey` at all). -/
theorem claim_C9 (s : TextState) (c : Char) (_hc : c.isAlpha = true) :
    processInterceptedKey (String.mk [c]) s
      = { s with pendingTextUpdate :=
            s.pendingTextUpdate
              ++ String.mk [specCaseFold s.capsLock (specLayoutChar s.inputLanguage c)] } := by
  have hinc : jsIncludes "Win+Esc" (String.mk [c]) = false := by
    simp [jsIncludes, listContainsSub, List.isPrefixOf]
  have hdig : jsStartsWith "Digit " (String.mk [c]) = false := by
    simp [jsStartsWith, List.isPrefixOf]
  unfold processInterceptedKey
  rw [hinc]
  rw [if_neg (Bool.false_ne_true)]
  rw [if_neg (singleCharStringNe c "Backspace" (by decide))]
  rw [if_neg (singleCharStringNe c "Enter" (by decide))]
  rw [if_neg (singleCharStringNe c "Space" (by decide))]
  rw [if_neg (singleCharStringNe c "Tab" (by decide))]
  rw [if_neg (singleCharStringNe c "Comma" (by decide))]
  rw [if_neg (singleCharStringNe c "Period" (by decide))]
  rw [if_neg (singleCharStringNe c "Slash" (by decide))]
  rw [if_neg (singleCharStringNe c "Semicolon" (by decide))]
  rw [if_neg (singleCharStringNe c "Quote" (by decide))]
  rw [if_neg (singleCharStringNe c "Backtick" (by decide))]
  rw [if_neg (singleCharStringNe c "Left Bracket" (by decide))]
  rw [if_neg (singleCharStringNe c "Right Bracket" (by decide))]
  rw [if_neg (singleCharStringNe c "Backslash" (by decide))]
  rw [if_neg (singleCharStringNe c "Minus" (by decide))]
  rw [if_neg (singleCharStringNe c "Equals" (by decide))]
  rw [hdig]
  rw [if_neg (Bool.false_ne_true)]
  rcases s with ⟨t, pnd, lang, caps⟩
  cases lang <;> cases caps <;> rfl

/-- Witness for C9: the `W` key under the Cyrillic layout with caps lock
off produces `ц`. -/
theorem claim_C9_witness :
    ('W'.isAlpha = true)
    ∧ processInterceptedKey (String.mk ['W']) ⟨"", "", .ru, false⟩ = ⟨"", "ц", .ru, false⟩ :=
  ⟨by decide, (claim_C9 ⟨"", "", .ru, false⟩ 'W' (by decide)).trans (by decide)⟩

/-! ## Claim C3: the single-playing invariant

The claim asserts that *every* client-side status operation preserves "at
most one entry is `playing`".  The `tts:started` handler sets its matched
entry to `playing` without demoting a currently playing one, so applied
while another entry is already playing it produces a second playing entry:
the invariant is not preserved by the client operations alone. -/

/-- Rewriting at most one element via `replaceFirst` can raise the count, so it can raise the count
of a predicate by at most one. -/
theorem countP_replaceFirst_le (pr p : TtsMessage → Bool) (f : TtsMessage → TtsMessage)
    (h : List TtsMessage) :
    (replaceFirst p f h).countP pr ≤ h.countP pr + 1 := by
  induction h with
  | nil => simp [replaceFirst]
  | cons x xs ih =>
    unfold replaceFirst
    by_cases hx : p x = true
    · rw [if_pos hx, List.countP_cons, List.countP_cons]
      have hb : (if pr (f x) = true then 1 else 0) ≤ (if pr x = true then 1 else 0) + 1 := by
        split <;> split <;> omega
      omega
    · rw [if_neg hx, List.countP_cons, List.countP_cons]
      omega

/-- C3 counterexample: a history satisfying the invariant (one playing
entry) on which the `tts:started` handler yields two playing entries. -/
theorem claim_C3_counterexample :
    countPlaying [⟨"d1", "x", 0, .playing, false⟩, ⟨"d2", "y", 0, .queued, false⟩] = 1
    ∧ countPlaying (ttsStartedHandler "d2"
        [⟨"d1", "x", 0, .playing, false⟩, ⟨"d2", "y", 0, .queued, false⟩]) = 2 := by
  constructor
  · decide
  · decide

/-- C3 as amended: every status handler rewrites at most one entry, so a
`tts:started` event delivered when no entry is playing leaves at most one
entry playing; the full invariant holds only under the backend's guarantee
that a start is never pushed while another utterance is still playing. -/
theorem claim_C3 (h : List TtsMessage) (id : String)
    (hzero : countPlaying h = 0) :
    countPlaying (ttsStartedHandler id h) ≤ 1 := by
  have hle := countP_replaceFirst_le (fun m => m.status = .playing)
    (fun m => m.id = id) (fun m => { m with status := .playing }) h
  have hle2 := countP_replaceFirst_le (fun m => m.status = .playing)
    isActiveTemp (fun m => { m with id := id, status := .playing }) h
  unfold ttsStartedHandler findMessageApply
  unfold countPlaying at hzero ⊢
  split
  · omega
  · omega

/-- Witness for C3 at a concrete history with no playing entry. -/
theorem claim_C3_witness :
    countPlaying [⟨"temp-1", "t", 3, .queued, false⟩] = 0
    ∧ countPlaying (ttsStartedHandler "r9" [⟨"temp-1", "t", 3, .queued, false⟩]) ≤ 1 :=
  ⟨by decide, claim_C3 [⟨"temp-1", "t", 3, .queued, false⟩] "r9" (by decide)⟩

/-! ## Claim C5: fallback matching of status events with unknown ids -/

/-- With no match, `replaceFirst` is the identity. -/
theorem replaceFirst_of_forall_neg (p : TtsMessage → Bool) (f : TtsMessage → TtsMessage)
    (h : List TtsMessage) (hall : ∀ m ∈ h, p m = false) :
    replaceFirst p f h = h := by
  induction h with
  | nil => rfl
  | cons x xs ih =>
    unfold replaceFirst
    rw [hall x (by simp)]
    simp only [Bool.false_eq_true, if_false]
    rw [ih (fun m hm => hall m (by simp [hm]))]

/-- With a first match exhibited, `replaceFirst` rewrites exactly it. -/
theorem replaceFirst_append_of_found (p : TtsMessage → Bool) (f : TtsMessage → TtsMessage)
    (pre : List TtsMessage) (x : TtsMessage) (post : List TtsMessage)
    (hpre : ∀ y ∈ pre, p y = false) (hx : p x = true) :
    replaceFirst p f (pre ++ x :: post) = pre ++ f x :: post := by
  induction pre with
  | nil => simp [replaceFirst, hx]
  | cons y ys ih =>
    simp only [List.cons_append]
    unfold replaceFirst
    rw [hpre y (by simp)]
    simp only [Bool.false_eq_true, if_false, List.append_eq]
    rw [ih (fun z hz => hpre z (by simp [hz]))]

/-- C5. For a status event whose id matches no local entry, the handler
applies the status change to the first — under the store's newest-first
ordering, the newest — provisional (`temp-`) entry still `queued` or
`playing`, and that entry adopts the pushed id; if no such entry exists the
history is left entirely unchanged.  (`st` instantiates to `playing` for
`tts:started` and `completed` for `tts:completed`/`tts:failed`/
`tts:cancelled`.) -/
theorem claim_C5 (h : List TtsMessage) (id : String) (st : TtsMessageStatus)
    (hid : ∀ m ∈ h, m.id ≠ id)
    (hnewest : h.Pairwise (fun a b => b.timestamp ≤ a.timestamp)) :
    ((∀ m ∈ h, isActiveTemp m = false) → findMessageApply id st h = h)
    ∧ (∀ pre x post, h = pre ++ x :: post → (∀ y ∈ pre, isActiveTemp y = false) →
        isActiveTemp x = true →
        findMessageApply id st h = pre ++ { x with id := id, status := st } :: post
        ∧ ∀ y ∈ h, isActiveTemp y = true → y.timestamp ≤ x.timestamp) := by
  have hany : h.any (fun m => m.id = id) = false := by
    simp only [List.any_eq_false, decide_eq_true_eq]
    exact hid
  constructor
  · intro hall
    unfold findMessageApply
    rw [hany]
    simp only [Bool.false_eq_true, if_false]
    exact replaceFirst_of_forall_neg _ _ h hall
  · intro pre x post hdec hpre hx
    constructor
    · unfold findMessageApply
      rw [hany]
      simp only [Bool.false_eq_true, if_false]
      rw [hdec]
      exact replaceFirst_append_of_found _ _ pre x post hpre hx
    · intro y hy hyact
      subst hdec
      rcases List.mem_append.mp hy with hy1 | hy2
      · exact absurd hyact (by simp [hpre y hy1])
      · rcases List.mem_cons.mp hy2 with rfl | hy3
        · exact le_refl _
        · have := (List.pairwise_append.mp hnewest).2.1
          exact (List.pairwise_cons.mp this).1 y hy3

/-- Witness for C5: a pushed id unknown locally lands on the first (newest)
active provisional entry, which adopts the id; older provisional entries
are untouched. -/
theorem claim_C5_witness :
    ((∀ m ∈ [(⟨"d7", "a", 9, .completed, false⟩ : TtsMessage),
              ⟨"temp-2", "b", 8, .queued, false⟩,
              ⟨"temp-1", "c", 7, .queued, false⟩], m.id ≠ "srv-42")
      ∧ ([(⟨"d7", "a", 9, .completed, false⟩ : TtsMessage),
          ⟨"temp-2", "b", 8, .queued, false⟩,
          ⟨"temp-1", "c", 7, .queued, false⟩].Pairwise
            (fun a b => b.timestamp ≤ a.timestamp)))
    ∧ findMessageApply "srv-42" .playing
        [⟨"d7", "a", 9, .completed, false⟩,
         ⟨"temp-2", "b", 8, .queued, false⟩,
         ⟨"temp-1", "c", 7, .queued, false⟩]
      = [⟨"d7", "a", 9, .completed, false⟩,
         ⟨"srv-42", "b", 8, .playing, false⟩,
         ⟨"temp-1", "c", 7, .queued, false⟩] := by
  refine ⟨⟨by decide, by decide⟩, ?_⟩
  have h := (claim_C5
    [⟨"d7", "a", 9, .completed, false⟩,
     ⟨"temp-2", "b", 8, .queued, false⟩,
     ⟨"temp-1", "c", 7, .queued, false⟩] "srv-42" .playing
    (by decide) (by decide)).2
    [⟨"d7", "a", 9, .completed, false⟩] ⟨"temp-2", "b", 8, .queued, false⟩
    [⟨"temp-1", "c", 7, .queued, false⟩] rfl (by decide) (by decide)
  exact h.1

/-! ## Claim C10: the `fetchTtsHistory` merge -/

/-- Pointwise-equal predicates give equal `any`. -/
theorem any_congr_of_forall {α : Type} (l : List α) (p q : α → Bool)
    (h : ∀ x ∈ l, p x = q x) : l.any p = l.any q := by
  induction l with
  | nil => rfl
  | cons x xs ih =>
    simp only [List.any_cons]
    rw [h x (by simp), ih (fun z hz => h z (by simp [hz]))]

/-- Overwriting entries keyed `k` leaves `mapHas` unchanged except at `k`
itself, where the map is known to contain `k` already. -/
theorem mapHas_map_overwrite (m : List (String × TtsMessage)) (k k' : String)
    (v : TtsMessage) (hk : m.any (fun p => p.1 = k) = true) :
    (m.map (fun p => if p.1 = k then (k, v) else p)).any (fun p => p.1 = k')
      = (m.any (fun p => p.1 = k') || decide (k' = k)) := by
  rw [List.any_map]
  by_cases hkk : k' = k
  · subst hkk
    simp only [decide_True, Bool.or_true]
    rw [← hk]
    apply any_congr_of_forall
    intro x _
    simp only [Function.comp]
    by_cases hx : x.1 = k'
    · simp [hx]
    · simp [hx]
  · simp only [decide_eq_false hkk, Bool.or_false]
    apply any_congr_of_forall
    intro x _
    simp only [Function.comp]
    by_cases hx : x.1 = k
    · simp [hx]
    · simp [hx]

/-- Behaviour of `mapHas` after a JS `Map.set`. -/
theorem mapHas_mapSet (m : List (String × TtsMessage)) (k : String) (v : TtsMessage)
    (k' : String) :
    mapHas (mapSet m k v) k' = (mapHas m k' || decide (k' = k)) := by
  unfold mapSet mapHas
  by_cases hk : m.any (fun p => p.1 = k) = true
  · rw [if_pos hk]
    exact mapHas_map_overwrite m k k' v hk
  · rw [if_neg hk]
    rw [List.any_append]
    simp [eq_comm]

/-- Querying `mapHas` on the `serverMap` is membership of the id in the server
history. -/
theorem mapHas_buildServerMap (server : List TtsMessage) (k : String) :
    mapHas (buildServerMap server) k = server.any (fun m => m.id = k) := by
  unfold buildServerMap
  suffices hgen : ∀ (acc : List (String × TtsMessage)),
      mapHas (server.foldl (fun m msg => mapSet m msg.id msg) acc) k
        = (mapHas acc k || server.any (fun m => m.id = k)) by
    have := hgen []
    simpa [mapHas] using this
  induction server with
  | nil => simp
  | cons x xs ih =>
    intro acc
    simp only [List.foldl_cons, List.any_cons]
    rw [ih (mapSet acc x.id x), mapHas_mapSet]
    have hcomm : decide (k = x.id) = decide (x.id = k) := decide_eq_decide.mpr eq_comm
    rw [hcomm, Bool.or_assoc]

/-- Accumulating `acc ++ [g x]` is mapping. -/
theorem foldl_append_singleton_map {α β : Type} (l : List α) (g : α → β)
    (init : List β) :
    l.foldl (fun acc x => acc ++ [g x]) init = init ++ l.map g := by
  induction l generalizing init with
  | nil => simp
  | cons x xs ih => simp [ih, List.append_assoc]

/-- Accumulating `acc ++ [x]` under a condition is filtering. -/
theorem foldl_append_filter {α : Type} (l : List α) (p : α → Bool)
    (init : List α) :
    l.foldl (fun acc x => if p x then acc ++ [x] else acc) init
      = init ++ l.filter p := by
  induction l generalizing init with
  | nil => simp
  | cons x xs ih =>
    by_cases hx : p x = true
    · simp [hx, ih, List.append_assoc, List.filter_cons]
    · simp only [List.foldl_cons, List.filter_cons, hx]
      simp only [Bool.false_eq_true, if_false]
      exact ih init

/-- C10. A successful `fetchTtsHistory` yields exactly the server entries
in the server's order — each taking the local status when a local entry
with the same id exists, and the server's other fields — followed at the
back by the local provisional (`temp-`) entries whose id is absent from
the server list; local non-provisional entries absent from the server are
dropped. -/
theorem claim_C10 (server localH : List TtsMessage) :
    fetchTtsHistoryMerge server localH
      = server.map (fun serverMsg =>
          match localH.find? (fun m => m.id = serverMsg.id) with
          | some localMsg => { serverMsg with status := localMsg.status }
          | none => serverMsg)
        ++ localH.filter (fun l =>
            !server.any (fun m => m.id = l.id) && jsStartsWith "temp-" l.id) := by
  unfold fetchTtsHistoryMerge
  rw [foldl_append_singleton_map, List.nil_append]
  have hx := foldl_append_filter localH
    (fun l => !mapHas (buildServerMap server) l.id && jsStartsWith "temp-" l.id)
    (server.map (fun serverMsg =>
      match localH.find? (fun m => m.id = serverMsg.id) with
      | some localMsg => { serverMsg with status := localMsg.status }
      | none => serverMsg))
  rw [hx]
  congr 1
  apply List.filter_congr
  intro x _
  rw [mapHas_buildServerMap]

/-! ## Claims C1 and C2: the watermark under dual delivery

The code's push path processes an event without comparing its `seq_num`
against the watermark, and a resumed pull overwrites the watermark with
the batch maximum without re-checking the watermark raised by pushes
delivered during the `await`.  The positive results below therefore need
the freshness side conditions `freshRun`/`resumeFreshRun`; the
counterexamples show the unconditional statements fail. -/

/-- Folding `max` never goes below the initial accumulator. -/
theorem le_foldl_max (l : List KeyEvent) (a : Int) :
    a ≤ l.foldl (fun b k => max b k.seq_num) a := by
  induction l generalizing a with
  | nil => exact le_refl a
  | cons x xs ih => exact le_trans (le_max_left a x.seq_num) (ih (max a x.seq_num))

/-- Folding `max` dominates every member. -/
theorem mem_le_foldl_max (l : List KeyEvent) (a : Int) (e : KeyEvent) (he : e ∈ l) :
    e.seq_num ≤ l.foldl (fun b k => max b k.seq_num) a := by
  induction l generalizing a with
  | nil => cases he
  | cons x xs ih =>
    rcases List.mem_cons.mp he with rfl | hmem
    · exact le_trans (le_max_right a e.seq_num) (le_foldl_max xs (max a e.seq_num))
    · exact ih (max a x.seq_num) hmem

/-- Taking `Math.max` over a batch dominates every member. -/
theorem mem_le_maxSeqNum (l : List KeyEvent) (e : KeyEvent) (he : e ∈ l) :
    e.seq_num ≤ maxSeqNum l := by
  cases l with
  | nil => cases he
  | cons x xs =>
    unfold maxSeqNum
    rcases List.mem_cons.mp he with rfl | hmem
    · exact le_foldl_max xs e.seq_num
    · exact mem_le_foldl_max xs x.seq_num e hmem

instance : IsTotal KeyEvent (fun a b => a.seq_num ≤ b.seq_num) :=
  ⟨fun a b => le_total a.seq_num b.seq_num⟩

instance : IsTrans KeyEvent (fun a b => a.seq_num ≤ b.seq_num) :=
  ⟨fun _ _ _ h1 h2 => le_trans h1 h2⟩

instance : IsAntisymm KeyEvent (fun a b => a.seq_num < b.seq_num) :=
  ⟨fun _ _ h1 h2 => absurd h2 (not_lt.mpr (le_of_lt h1))⟩

/-- The comparison sort is a permutation of the batch. -/
theorem sortBySeqNum_perm (l : List KeyEvent) : List.Perm (sortBySeqNum l) l :=
  List.perm_insertionSort _ l

/-- The comparison sort is sorted by `seq_num`. -/
theorem sortBySeqNum_sorted (l : List KeyEvent) :
    List.Sorted (fun a b => a.seq_num ≤ b.seq_num) (sortBySeqNum l) :=
  List.sorted_insertionSort _ l

/-- A `seq_num`-sorted, `seq_num`-duplicate-free list is strictly
ascending. -/
theorem sorted_nodup_pairwise_lt (l : List KeyEvent)
    (hs : l.Pairwise (fun a b => a.seq_num ≤ b.seq_num))
    (hn : (l.map (fun e => e.seq_num)).Nodup) :
    l.Pairwise (fun a b => a.seq_num < b.seq_num) := by
  have hne : l.Pairwise (fun a b => a.seq_num ≠ b.seq_num) := List.pairwise_map.mp hn
  exact (hs.and hne).imp (fun h => lt_of_le_of_ne h.1 h.2)

/-- Folding `procKeys` splits over append. -/
theorem procKeys_append (ts : TextState) (l1 l2 : List KeyEvent) :
    procKeys ts (l1 ++ l2) = procKeys (procKeys ts l1) l2 :=
  List.foldl_append _ _ _ _

/-- The run invariant: blocking stays on, the text state is the fold of
the processed ghost log, the log is strictly ascending in `seq_num`, and
the watermark dominates every processed event. -/
def KInv (ts0 : TextState) (s : KModel) : Prop :=
  s.blockingEnabled = true
  ∧ s.textState = procKeys ts0 s.processedLog
  ∧ s.processedLog.Pairwise (fun a b => a.seq_num < b.seq_num)
  ∧ ∀ e ∈ s.processedLog, e.seq_num ≤ s.lastProcessedSeqNum

/-- A fresh push preserves the invariant. -/
theorem kinv_stepPush (ts0 : TextState) (s : KModel) (e : KeyEvent)
    (hinv : KInv ts0 s) (hf : s.lastProcessedSeqNum < e.seq_num) :
    KInv ts0 (stepPush e s) := by
  obtain ⟨hb, ht, hp, hw⟩ := hinv
  unfold stepPush
  rw [hb]
  simp only [if_true]
  refine ⟨rfl, ?_, ?_, ?_⟩
  · rw [procKeys_append, ← ht]
    rfl
  · rw [List.pairwise_append]
    refine ⟨hp, List.pairwise_singleton _ _, ?_⟩
    intro a ha b hb2
    rcases List.mem_singleton.mp hb2 with rfl
    exact lt_of_le_of_lt (hw a ha) hf
  · intro x hx
    rcases List.mem_append.mp hx with hx1 | hx2
    · exact le_trans (hw x hx1) (le_max_left _ _)
    · rcases List.mem_singleton.mp hx2 with rfl
      exact le_max_right _ _

/-- Starting a pull touches only the in-flight guard. -/
theorem kinv_stepPullStart (ts0 : TextState) (s : KModel) (hinv : KInv ts0 s) :
    KInv ts0 (stepPullStart s) := by
  unfold stepPullStart
  split
  · exact hinv
  · exact hinv

/-- Resuming a pull with a fresh, duplicate-free batch preserves the
invariant. -/
theorem kinv_stepPullResume (ts0 : TextState) (s : KModel) (batch : List KeyEvent)
    (hinv : KInv ts0 s)
    (hf : ∀ e ∈ batch, s.lastProcessedSeqNum < e.seq_num)
    (hn : (batch.map (fun e => e.seq_num)).Nodup) :
    KInv ts0 (stepPullResume batch s) := by
  obtain ⟨hb, ht, hp, hw⟩ := hinv
  unfold stepPullResume
  split
  · exact ⟨hb, ht, hp, hw⟩
  · rw [hb]
    simp only [Bool.true_and]
    by_cases hbe : batch.isEmpty = true
    · rw [if_neg (by simp [hbe])]
      exact ⟨hb, ht, hp, hw⟩
    · rw [if_pos (by simp [hbe])]
      have hbatchne : batch ≠ [] := by
        intro hnil
        rw [hnil] at hbe
        exact hbe rfl
      have hsorted_mem : ∀ x ∈ sortBySeqNum batch, x ∈ batch :=
        fun x hx => (sortBySeqNum_perm batch).mem_iff.mp hx
      have hsorted_lt : (sortBySeqNum batch).Pairwise (fun a b => a.seq_num < b.seq_num) := by
        refine sorted_nodup_pairwise_lt _ (sortBySeqNum_sorted batch) ?_
        exact (((sortBySeqNum_perm batch).map (fun e => e.seq_num)).nodup_iff).mpr hn
      refine ⟨rfl, ?_, ?_, ?_⟩
      · rw [procKeys_append, ← ht]
      · rw [List.pairwise_append]
        refine ⟨hp, hsorted_lt, ?_⟩
        intro a ha b hb2
        exact lt_of_le_of_lt (hw a ha) (hf b (hsorted_mem b hb2))
      · intro x hx
        have hwmax : s.lastProcessedSeqNum ≤ maxSeqNum (sortBySeqNum batch) := by
          obtain ⟨b0, hb0⟩ := List.exists_mem_of_ne_nil batch hbatchne
          have hb0s : b0 ∈ sortBySeqNum batch := (sortBySeqNum_perm batch).mem_iff.mpr hb0
          exact le_trans (le_of_lt (hf b0 hb0)) (mem_le_maxSeqNum _ b0 hb0s)
        rcases List.mem_append.mp hx with hx1 | hx2
        · exact le_trans (hw x hx1) hwmax
        · exact mem_le_maxSeqNum _ x hx2

/-- The invariant holds along every fresh interleaving. -/
theorem kinv_runActs (ts0 : TextState) (tr : List KAction) (s : KModel)
    (hinv : KInv ts0 s) (hfresh : freshRun s tr = true) :
    KInv ts0 (runActs s tr) := by
  induction tr generalizing s with
  | nil => exact hinv
  | cons a rest ih =>
    simp only [runActs, List.foldl_cons] at *
    cases a with
    | push e =>
      simp only [freshRun, Bool.and_eq_true, decide_eq_true_eq] at hfresh
      exact ih (stepModel s (.push e)) (kinv_stepPush ts0 s e hinv hfresh.1) hfresh.2
    | pullStart =>
      simp only [freshRun] at hfresh
      exact ih (stepModel s .pullStart) (kinv_stepPullStart ts0 s hinv) hfresh
    | pullResume batch =>
      simp only [freshRun, Bool.and_eq_true, List.all_eq_true, decide_eq_true_eq] at hfresh
      exact ih (stepModel s (.pullResume batch))
        (kinv_stepPullResume ts0 s batch hinv hfresh.1.1 hfresh.1.2) hfresh.2

/-- The initial store state satisfies the invariant. -/
theorem kinv_initModel (lang : InputLang) (caps : Bool) :
    KInv ⟨"", "", lang, caps⟩ (initModel lang caps) :=
  ⟨rfl, rfl, List.Pairwise.nil, fun _ he => absurd he (List.not_mem_nil _)⟩

/-- C1 counterexample: one key event `A` (seq 0), delivered by push while
the initial pull is awaiting its response and again in that pull's
response (a legitimate response: the request was for all events after the
watermark `-1` captured at `pullStart`).  The composed text ends as
`"aa"`, not the `"a"` of processing the event once. -/
theorem claim_C1_counterexample :
    effText (runActs (initModel .en false)
        [.pullStart, .push ⟨65, "A", 0, 0⟩,
         .pullResume [⟨65, "A", 0, 0⟩]]).textState = "aa"
    ∧ specOnceText .en false [⟨65, "A", 0, 0⟩] = "a"
    ∧ ("aa" : String) ≠ "a"
    ∧ (initModel .en false).lastProcessedSeqNum < (0 : Int) := by
  refine ⟨by decide, by decide, by decide, by decide⟩

/-- C1 as amended: the final composed text equals processing each distinct
event exactly once in ascending `seq` order, for every interleaving of
push and pull delivery in which every processed event is fresh (its `seq`
strictly above the watermark at the moment it is processed, pull batches
duplicate-free — the gate the code does not itself enforce on a push
racing an in-flight pull) and every event of the set is delivered. -/
theorem claim_C1 (lang : InputLang) (caps : Bool) (S : List KeyEvent)
    (tr : List KAction)
    (hnodup : (S.map (fun e => e.seq_num)).Nodup)
    (hfresh : freshRun (initModel lang caps) tr = true)
    (hsub : ∀ e ∈ (runActs (initModel lang caps) tr).processedLog, e ∈ S)
    (hcover : ∀ e ∈ S, e ∈ (runActs (initModel lang caps) tr).processedLog) :
    effText (runActs (initModel lang caps) tr).textState = specOnceText lang caps S := by
  obtain ⟨hb, ht, hp, hw⟩ :=
    kinv_runActs ⟨"", "", lang, caps⟩ tr (initModel lang caps)
      (kinv_initModel lang caps) hfresh
  have hPnodup : (runActs (initModel lang caps) tr).processedLog.Nodup :=
    hp.imp (fun hlt heq => absurd (heq ▸ hlt) (lt_irrefl _))
  have hSnodup : S.Nodup := List.Nodup.of_map _ hnodup
  have hperm : List.Perm (runActs (initModel lang caps) tr).processedLog S := by
    refine List.perm_of_nodup_nodup_toFinset_eq hPnodup hSnodup ?_
    ext a
    simp only [List.mem_toFinset]
    exact ⟨hsub a, hcover a⟩
  have hsortS : (sortBySeqNum S).Pairwise (fun a b => a.seq_num < b.seq_num) := by
    refine sorted_nodup_pairwise_lt _ (sortBySeqNum_sorted S) ?_
    exact (((sortBySeqNum_perm S).map (fun e => e.seq_num)).nodup_iff).mpr hnodup
  have heq : (runActs (initModel lang caps) tr).processedLog = sortBySeqNum S :=
    List.eq_of_perm_of_sorted (hperm.trans (sortBySeqNum_perm S).symm) hp hsortS
  rw [ht, heq]
  rfl

/-- Witness for C1: two events, one pushed and one pulled, with a fresh
interleaving. -/
theorem claim_C1_witness :
    (((([⟨65, "A", 0, 0⟩, ⟨66, "B", 0, 1⟩] : List KeyEvent).map
          (fun e => e.seq_num)).Nodup)
      ∧ freshRun (initModel .en false)
          [.push ⟨65, "A", 0, 0⟩, .pullStart, .pullResume [⟨66, "B", 0, 1⟩]] = true)
    ∧ effText (runActs (initModel .en false)
          [.push ⟨65, "A", 0, 0⟩, .pullStart,
           .pullResume [⟨66, "B", 0, 1⟩]]).textState
      = specOnceText .en false [⟨65, "A", 0, 0⟩, ⟨66, "B", 0, 1⟩] :=
  ⟨⟨by decide, by decide⟩,
   claim_C1 .en false [⟨65, "A", 0, 0⟩, ⟨66, "B", 0, 1⟩]
     [.push ⟨65, "A", 0, 0⟩, .pullStart, .pullResume [⟨66, "B", 0, 1⟩]]
     (by decide) (by decide) (by decide) (by decide)⟩

/-- A push never lowers the watermark (it takes a `max`). -/
theorem watermark_stepPush (s : KModel) (e : KeyEvent) :
    s.lastProcessedSeqNum ≤ (stepPush e s).lastProcessedSeqNum := by
  unfold stepPush
  split
  · exact le_max_left _ _
  · exact le_max_left _ _

/-- Starting a pull leaves the watermark alone. -/
theorem watermark_stepPullStart (s : KModel) :
    s.lastProcessedSeqNum ≤ (stepPullStart s).lastProcessedSeqNum := by
  unfold stepPullStart
  split
  · exact le_refl _
  · exact le_refl _

/-- Resuming a pull whose batch is entirely above the current watermark
does not lower the watermark. -/
theorem watermark_stepPullResume (s : KModel) (batch : List KeyEvent)
    (hf : ∀ e ∈ batch, s.lastProcessedSeqNum < e.seq_num) :
    s.lastProcessedSeqNum ≤ (stepPullResume batch s).lastProcessedSeqNum := by
  unfold stepPullResume
  split
  · exact le_refl _
  · by_cases hc : (s.blockingEnabled && !batch.isEmpty) = true
    · rw [if_pos hc]
      have hbatchne : batch ≠ [] := by
        intro hnil
        rw [hnil] at hc
        simp at hc
      obtain ⟨b0, hb0⟩ := List.exists_mem_of_ne_nil batch hbatchne
      have hb0s : b0 ∈ sortBySeqNum batch := (sortBySeqNum_perm batch).mem_iff.mpr hb0
      exact le_trans (le_of_lt (hf b0 hb0)) (mem_le_maxSeqNum _ b0 hb0s)
    · rw [if_neg hc]

/-- C2 counterexample: after `pullStart` (capturing `afterSeq = -1`), two
pushes raise the watermark to `1`; the pull then resumes with the batch
`[seq 0]` (a legitimate response snapshot taken before the second event
existed) and `fetchKeys` overwrites the watermark with the batch maximum
`0` — the update decreases it. -/
theorem claim_C2_counterexample :
    (runActs (initModel .en false)
        [.pullStart, .push ⟨65, "A", 0, 0⟩, .push ⟨66, "B", 0, 1⟩]).lastProcessedSeqNum = 1
    ∧ (runActs (initModel .en false)
        [.pullStart, .push ⟨65, "A", 0, 0⟩, .push ⟨66, "B", 0, 1⟩,
         .pullResume [⟨65, "A", 0, 0⟩]]).lastProcessedSeqNum = 0
    ∧ (0 : Int) < 1 := by
  refine ⟨by decide, by decide, by decide⟩

/-- C2 as amended: the watermark is non-decreasing across every push
update (which takes a `max`) and across every `fetchKeys` completion whose
batch lies entirely above the watermark current at resume time — as is
the case whenever no push is delivered while the pull is in flight.  A
pull resumed after pushes have advanced the watermark past the batch
maximum lowers it to that maximum (see the counterexample). -/
theorem claim_C2 (s : KModel) (tr : List KAction)
    (hfresh : resumeFreshRun s tr = true) :
    s.lastProcessedSeqNum ≤ (runActs s tr).lastProcessedSeqNum := by
  induction tr generalizing s with
  | nil => exact le_refl _
  | cons a rest ih =>
    simp only [runActs, List.foldl_cons] at *
    cases a with
    | push e =>
      simp only [resumeFreshRun] at hfresh
      exact le_trans (watermark_stepPush s e) (ih (stepModel s (.push e)) hfresh)
    | pullStart =>
      simp only [resumeFreshRun] at hfresh
      exact le_trans (watermark_stepPullStart s) (ih (stepModel s .pullStart) hfresh)
    | pullResume batch =>
      simp only [resumeFreshRun, Bool.and_eq_true, List.all_eq_true,
        decide_eq_true_eq] at hfresh
      exact le_trans (watermark_stepPullResume s batch hfresh.1)
        (ih (stepModel s (.pullResume batch)) hfresh.2)

/-- Witness for C2 along a concrete interleaving with pushes and a pull. -/
theorem claim_C2_witness :
    resumeFreshRun (initModel .en false)
        [.pullStart, .pullResume [⟨65, "A", 0, 0⟩], .push ⟨66, "B", 0, 1⟩] = true
    ∧ (initModel .en false).lastProcessedSeqNum
      ≤ (runActs (initModel .en false)
          [.pullStart, .pullResume [⟨65, "A", 0, 0⟩],
           .push ⟨66, "B", 0, 1⟩]).lastProcessedSeqNum :=
  ⟨by decide,
   claim_C2 (initModel .en false)
     [.pullStart, .pullResume [⟨65, "A", 0, 0⟩], .push ⟨66, "B", 0, 1⟩] (by decide)⟩

end TtsApp
